import Mathlib

/-!
Verification of the schema-inference engine and the identifier-coercion pass
of a MongoDB MCP server (src/index.ts).  The JavaScript values flowing through
the analyzed code are modelled by the inductive type `Value`; the mutable
`fieldInfo` accumulator of `getSchema` is modelled as an association list in
insertion order, and the recursive `analyzeObject` fold is translated into the
mutually recursive functions `analyzeEntries` / `analyzeInto`.  Fallible
JavaScript operations (`Object.entries(null)` throws a TypeError) are modelled
with `Except`.
-/

/-- A JavaScript/BSON value as handled by the server: `null`, booleans,
numbers, strings, `Date` instances, `ObjectId` instances, arrays and plain
objects (ordered key/value entry lists, as produced by `Object.entries`). -/
inductive Value where
  | null
  | bool (b : Bool)
  | num (n : Int)
  | str (s : String)
  | date (t : Int)
  | objectId (id : String)
  | arr (elems : List Value)
  | obj (entries : List (String × Value))

/-- Whether a value is the JavaScript `null` marker (`value === null`). -/
def Value.isNull : Value → Bool
  | .null => true
  | _ => false

/-- The JavaScript `typeof` operator on the modelled values.  Note that
`typeof null`, `typeof` of a `Date`, of an `ObjectId` and of an array are all
the string `"object"`. -/
def jsTypeof : Value → String
  | .null => "object"
  | .bool _ => "boolean"
  | .num _ => "number"
  | .str _ => "string"
  | .date _ => "object"
  | .objectId _ => "object"
  | .arr _ => "object"
  | .obj _ => "object"

/-- `Array.isArray`. -/
def jsIsArray : Value → Bool
  | .arr _ => true
  | _ => false

/-- `value instanceof Date`. -/
def jsIsDate : Value → Bool
  | .date _ => true
  | _ => false

/-- `value instanceof ObjectId`. -/
def jsIsObjectId : Value → Bool
  | .objectId _ => true
  | _ => false

/-- The type tag computed in `analyzeObject` (index.ts lines 531-535):
`Array.isArray(value) ? 'array' : value === null ? 'null' :
 value instanceof Date ? 'date' : value instanceof ObjectId ? 'ObjectId' :
 typeof value`. -/
def classify (v : Value) : String :=
  if jsIsArray v then "array"
  else if v.isNull then "null"
  else if jsIsDate v then "date"
  else if jsIsObjectId v then "ObjectId"
  else jsTypeof v

/-- `Object.entries`, as invoked on an arbitrary sampled document.  On plain
objects it returns the entry list; on arrays and strings it returns
index-keyed entries; on numbers, booleans, `Date`s and `ObjectId`s it returns
no entries (they have no own enumerable string-keyed properties); on `null`
it throws a `TypeError`. -/
def jsEntries : Value → Except String (List (String × Value))
  | .null => .error "TypeError: Cannot convert undefined or null to object"
  | .obj entries => .ok entries
  | .arr elems => .ok ((elems.enum).map (fun iv => (toString iv.1, iv.2)))
  | .str s => .ok ((s.data.enum).map (fun ic => (toString ic.1, Value.str (String.mk [ic.2]))))
  | _ => .ok []

/-- The per-path accumulator of `getSchema`'s `fieldInfo` record:
`{ types: Set<string>; examples: any[]; count: number }`.  The JavaScript
`Set` keeps insertion order, so it is modelled as a duplicate-free list. -/
structure FieldInfo where
  types : List String
  examples : List Value
  count : Nat

/-- The `fieldInfo` accumulator: a mapping from field path to `FieldInfo`,
in insertion order (JavaScript object with non-index string keys). -/
abbrev FieldInfoMap := List (String × FieldInfo)

/-- The per-visit update of one `FieldInfo` record (index.ts lines 529-542):
increment `count`, add the classified type tag to `types`, and push the value
onto `examples` if fewer than 3 examples were captured and the value is not
`null`. -/
def touchInfo (info : FieldInfo) (v : Value) : FieldInfo :=
  let info1 : FieldInfo := { info with count := info.count + 1 }
  let t := classify v
  let info2 : FieldInfo :=
    { info1 with types := if info1.types.contains t then info1.types else info1.types ++ [t] }
  if info2.examples.length < 3 && !v.isNull then
    { info2 with examples := info2.examples ++ [v] }
  else info2

/-- Lazily create (`if (!fieldInfo[fieldPath]) fieldInfo[fieldPath] = ...`)
and update the record for `path`, keeping all other entries and the insertion
order unchanged. -/
def updateField (m : FieldInfoMap) (path : String) (v : Value) : FieldInfoMap :=
  match m with
  | [] => [(path, touchInfo ⟨[], [], 0⟩ v)]
  | (p, info) :: rest =>
    if p = path then (p, touchInfo info v) :: rest
    else (p, info) :: updateField rest path v

/-- The dotted path join of index.ts line 523:
``const fieldPath = prefix ? `${prefix}.${key}` : key`` (the empty string is
falsy in JavaScript). -/
def joinPath (pre key : String) : String :=
  if pre = "" then key else pre ++ "." ++ key

mutual
/-- The body of `analyzeObject` (index.ts lines 521-549) folded over an entry
list: for each key/value pair, compute the dotted field path, update its
record, and — when the classified tag is `"object"` and the value is not
`null` — recurse into the nested object with the field path as new prefix. -/
def analyzeEntries (m : FieldInfoMap) (pre : String) : List (String × Value) → FieldInfoMap
  | [] => m
  | (key, v) :: rest =>
    let fieldPath := joinPath pre key
    let m1 := updateField m fieldPath v
    let m2 := if (classify v == "object") && !v.isNull then analyzeInto m1 fieldPath v else m1
    analyzeEntries m2 pre rest

/-- The recursive call `analyzeObject(value, fieldPath)` on a nested value
(only ever reached for plain objects). -/
def analyzeInto (m : FieldInfoMap) (fieldPath : String) : Value → FieldInfoMap
  | .obj entries => analyzeEntries m fieldPath entries
  | _ => m
end

/-- One top-level call `analyzeObject(doc)` (prefix defaults to `''`): applies
`Object.entries` to the raw sampled document — which throws on `null` — and
folds the resulting entries. -/
def analyzeDoc (m : FieldInfoMap) (doc : Value) : Except String FieldInfoMap :=
  match jsEntries doc with
  | .error e => .error e
  | .ok entries => .ok (analyzeEntries m "" entries)

/-- `samples.forEach(doc => analyzeObject(doc))` (index.ts line 552): a thrown
exception aborts the whole loop. -/
def foldSamples (m : FieldInfoMap) : List Value → Except String FieldInfoMap
  | [] => .ok m
  | doc :: rest =>
    match analyzeDoc m doc with
    | .error e => .error e
    | .ok m1 => foldSamples m1 rest

/-- The complete accumulator pass of `getSchema`, starting from the fresh
empty `fieldInfo`. -/
def inferSamples (samples : List Value) : Except String FieldInfoMap :=
  foldSamples [] samples

/-- Exact-rational model of `Math.round((count / len) * 100)` for the
percentage computation (index.ts line 560): `Math.round` rounds half toward
positive infinity, i.e. `floor(x + 1/2)`. -/
def jsRound100 (count len : Nat) : Nat :=
  (200 * count + len) / (2 * len)

/-- The public per-field view built by the `reduce` at index.ts lines 555-563:
types as an array, the captured examples, `frequency` as the string
`"<count>/<samples.length>"`, and the rounded percentage. -/
structure FieldView where
  types : List String
  examples : List Value
  frequency : String
  percentage : Nat

/-- Build the public view of one record against the actual sample count. -/
def mkView (len : Nat) (info : FieldInfo) : FieldView :=
  { types := info.types
    examples := info.examples
    frequency := toString info.count ++ "/" ++ toString len
    percentage := jsRound100 info.count len }

/-- The two response shapes of the `getSchema` tool: the empty-collection
response `{ message: 'No documents found in collection', fields: {} }`
(which carries no `sampleSize` and no `summary`), and the full report
`{ collection, sampleSize, fields, summary: { totalFields, totalDocuments } }`. -/
inductive GetSchemaResult where
  | noDocuments (message : String) (fields : List (String × FieldView))
  | report (collection : String) (sampleSize : Nat) (fields : List (String × FieldView))
      (totalFields : Nat) (totalDocuments : Nat)

/-- The bounded sample fetch `collection.find({}).limit(sampleSize).toArray()`
over an in-memory collection; in the MongoDB driver a limit of `0` means no
limit. -/
def fetchLimit (docs : List Value) (limit : Nat) : List Value :=
  if limit = 0 then docs else docs.take limit

/-- The `getSchema` tool handler (index.ts lines 500-581): fetch up to
`sampleSize` documents, return the `No documents found` response on an empty
sample, otherwise fold all samples through `analyzeObject` and format the
report from the actual sample count `samples.length`. -/
def getSchema (collName : String) (docs : List Value) (sampleSize : Nat) :
    Except String GetSchemaResult :=
  let samples := fetchLimit docs sampleSize
  if samples.length = 0 then
    .ok (.noDocuments "No documents found in collection" [])
  else
    match inferSamples samples with
    | .error e => .error e
    | .ok fieldInfo =>
      let schema := fieldInfo.map (fun pi => (pi.1, mkView samples.length pi.2))
      .ok (.report collName samples.length schema schema.length samples.length)

/-- `ObjectId.isValid` on a string argument (bson driver): valid iff the
string has length 12 (a 12-byte id) or length 24 and is all hexadecimal. -/
def isValidObjectIdStr (s : String) : Bool :=
  s.length = 12 || (s.length = 24 && s.data.all (fun c => c.isDigit ||
    ('a' ≤ c && c ≤ 'f') || ('A' ≤ c && c ≤ 'F')))

/-- JavaScript `String.prototype.endsWith`, stated on the character list
(equivalent for the ASCII keys at hand). -/
def strEndsWith (s post : String) : Bool :=
  decide (post.data.length ≤ s.data.length) &&
    decide (s.data.drop (s.data.length - post.data.length) = post.data)

/-- The key test of index.ts line 131: `key === '_id' || key.endsWith('_id')
|| key.endsWith('Id') || key.endsWith('_ids') || key.endsWith('Ids')`. -/
def isIdKey (k : String) : Bool :=
  k = "_id" || strEndsWith k "_id" || strEndsWith k "Id" || strEndsWith k "_ids" ||
    strEndsWith k "Ids"

/-- JavaScript falsiness of a modelled value (`if (!obj) return obj`):
`null`, `false`, `0` and the empty string are falsy. -/
def isFalsy : Value → Bool
  | .null => true
  | .bool b => !b
  | .num n => n = 0
  | .str s => s = ""
  | _ => false

/-- The element conversion used for arrays and `$in` arrays under id-like keys
(index.ts lines 135 and 139): a valid string element becomes an `ObjectId`,
everything else is kept as is — no recursion into non-string elements. -/
def convOidElem (v : Value) : Value :=
  match v with
  | .str s => if isValidObjectIdStr s then .objectId s else .str s
  | _ => v

/-- The replacement object built at index.ts lines 137-141 for an object value
holding a `$in` key under an id-like key: only the `$in` entry is kept, and
when it is an array its string elements are converted by validity alone. -/
def dollarInValue (e : List (String × Value)) : Value :=
  match e.lookup "$in" with
  | some (.arr l) => .arr (l.map convOidElem)
  | some v => v
  | none => .null

mutual
/-- `convertToObjectIds` (index.ts lines 117-153): falsy values are returned
unchanged; a valid 24-character string becomes an `ObjectId`; arrays are
converted elementwise; objects (`typeof obj === 'object'` — which also
matches `Date` and `ObjectId` instances, whose entry lists are empty) are
rebuilt from their converted entries; all remaining values are returned
unchanged. -/
def convertToObjectIds (v : Value) : Value :=
  if isFalsy v then v
  else match v with
  | .str s => if isValidObjectIdStr s && s.length = 24 then .objectId s else .str s
  | .arr elems => .arr (convertList elems)
  | .obj entries => .obj (convertEntries entries)
  | .date _ => .obj []
  | .objectId _ => .obj []
  | other => other

/-- `obj.map((item) => this.convertToObjectIds(item))`. -/
def convertList : List Value → List Value
  | [] => []
  | v :: rest => convertToObjectIds v :: convertList rest

/-- The per-entry loop of index.ts lines 130-148.  Under an id-like key: a
valid string becomes an `ObjectId` (no length-24 requirement), an array is
converted elementwise by validity alone, an object holding `$in` is replaced
by a `$in`-only object, and anything else is converted recursively.  Under
any other key the value is converted recursively. -/
def convertEntries : List (String × Value) → List (String × Value)
  | [] => []
  | (key, value) :: rest =>
    let conv :=
      if isIdKey key then
        match value with
        | .str s =>
          if isValidObjectIdStr s then Value.objectId s
          else convertToObjectIds value
        | .arr l => Value.arr (l.map convOidElem)
        | .obj e =>
          if e.any (fun kv => kv.1 = "$in") then Value.obj [("$in", dollarInValue e)]
          else convertToObjectIds value
        | _ => convertToObjectIds value
      else convertToObjectIds value
    (key, conv) :: convertEntries rest
end

/-! ## Analysis infrastructure

`visitedEntries` mirrors the traversal of `analyzeEntries` and records, in
visit order, every `(fieldPath, value)` pair for which a record update is
performed.  All facts about the accumulator are derived from the single
correspondence `analyzeEntries m pre l = foldl updateField over the visits`.
-/

mutual
/-- The ordered list of `(fieldPath, value)` visits performed by
`analyzeEntries m pre l` (independent of the accumulator `m`). -/
def visitedEntries (pre : String) : List (String × Value) → List (String × Value)
  | [] => []
  | (key, v) :: rest =>
    let fieldPath := joinPath pre key
    (fieldPath, v) ::
      ((if (classify v == "object") && !v.isNull then visitedInto fieldPath v else []) ++
        visitedEntries pre rest)

/-- The visits performed by the nested recursion `analyzeInto`. -/
def visitedInto (fieldPath : String) : Value → List (String × Value)
  | .obj entries => visitedEntries fieldPath entries
  | _ => []
end

/-- The field paths visited while analyzing an entry list, in visit order and
with multiplicity. -/
def pathList (pre : String) (l : List (String × Value)) : List String :=
  (visitedEntries pre l).map Prod.fst

/-- Look up the record stored for a field path (JavaScript object indexing
`fieldInfo[fieldPath]`). -/
def lookupInfo : FieldInfoMap → String → Option FieldInfo
  | [], _ => none
  | (p, info) :: rest, q => if p = q then some info else lookupInfo rest q

/-- The presence count recorded for a path (`0` when the path is absent). -/
def countAt (m : FieldInfoMap) (q : String) : Nat :=
  match lookupInfo m q with
  | some info => info.count
  | none => 0

/-- The examples recorded for a path (`[]` when the path is absent). -/
def examplesAt (m : FieldInfoMap) (q : String) : List Value :=
  match lookupInfo m q with
  | some info => info.examples
  | none => []

/-- The type tags recorded for a path (`[]` when the path is absent). -/
def typesAt (m : FieldInfoMap) (q : String) : List String :=
  match lookupInfo m q with
  | some info => info.types
  | none => []

/-- The field paths present in the accumulator, in insertion order. -/
def keysOf (m : FieldInfoMap) : List String :=
  m.map Prod.fst

/-- A document key that cannot collide with the dotted path syntax: nonempty
and containing no dot. -/
def keyOk (k : String) : Bool :=
  decide (k ≠ "") && decide ('.' ∉ k.data)

mutual
/-- Well-formedness of a value for unambiguous path generation: every object
reachable in it has pairwise distinct keys (guaranteed for JavaScript
objects), all of them nonempty and dot-free. -/
def keysOk : Value → Bool
  | .arr l => keysOkList l
  | .obj e =>
    decide ((e.map Prod.fst).Nodup) && (e.map Prod.fst).all keyOk && keysOkEntries e
  | _ => true

/-- `keysOk` on every element of an array. -/
def keysOkList : List Value → Bool
  | [] => true
  | v :: rest => keysOk v && keysOkList rest

/-- `keysOk` on every value of an entry list. -/
def keysOkEntries : List (String × Value) → Bool
  | [] => true
  | (_, v) :: rest => keysOk v && keysOkEntries rest
end

/-- A sampled record that is mapping-shaped and path-unambiguous. -/
def goodDoc : Value → Bool
  | .obj e => keysOk (.obj e)
  | _ => false

mutual
/-- Modelled from the spec (data-model section): the set of field paths
"reachable by recursive descent into nested object-typed values", used to
compare the implementation's path set against the specified one.  Arrays are
opaque: only object values are descended into. -/
def specPaths (pre : String) : Value → List String
  | .obj entries => specPathsEntries pre entries
  | _ => []

/-- The spec-side paths contributed by an entry list: each key's own path,
followed by the paths reachable inside its value. -/
def specPathsEntries (pre : String) : List (String × Value) → List String
  | [] => []
  | (k, v) :: rest =>
    joinPath pre k :: (specPaths (joinPath pre k) v ++ specPathsEntries pre rest)
end

/-- Projection: the fields of a successful full report (empty otherwise). -/
def reportFields : Except String GetSchemaResult → List (String × FieldView)
  | .ok (.report _ _ fields _ _) => fields
  | _ => []

/-- Projection: the `sampleSize` of a successful full report (`0` otherwise —
in particular the `No documents found` response carries no sample size). -/
def reportSampleSize : Except String GetSchemaResult → Nat
  | .ok (.report _ sz _ _ _) => sz
  | _ => 0

/-- Whether the response carries a `sampleSize` field at all: only the full
report shape does. -/
def responseHasSampleSize : Except String GetSchemaResult → Bool
  | .ok (.report _ _ _ _ _) => true
  | _ => false

/-- The percentage reported for a path (`0` when absent). -/
def fieldPercentage (r : Except String GetSchemaResult) (path : String) : Nat :=
  match (reportFields r).lookup path with
  | some view => view.percentage
  | none => 0

/-- The frequency string reported for a path (`""` when absent). -/
def fieldFrequency (r : Except String GetSchemaResult) (path : String) : String :=
  match (reportFields r).lookup path with
  | some view => view.frequency
  | none => ""

/-- The presence count accumulated for a path over a sample list (`0` when
inference fails or the path is absent). -/
def inferredCount (samples : List Value) (path : String) : Nat :=
  match inferSamples samples with
  | .ok m => countAt m path
  | .error _ => 0

/-- Folding a list of `(path, value)` visits through `updateField`. -/
def applyVisits (m : FieldInfoMap) (vs : List (String × Value)) : FieldInfoMap :=
  vs.foldl (fun acc pv => updateField acc pv.1 pv.2) m

/-- The non-null values recorded for path `q` by a visit list. -/
def visitValuesAt (q : String) (vs : List (String × Value)) : List Value :=
  ((vs.filter (fun pv => pv.1 = q)).map Prod.snd).filter (fun v => !v.isNull)

/-- The visit list of one top-level `analyzeObject(doc)` call (empty for the
entry-less scalar documents; never consulted for `null`, which throws). -/
def docVisits (doc : Value) : List (String × Value) :=
  match jsEntries doc with
  | .ok entries => visitedEntries "" entries
  | .error _ => []

/-- A sample whose document uses a literal dotted key `"a.b"` next to a nested
object `a.b`: both `Object.entries` visits produce the same field path. -/
def dottedSample : List Value :=
  [Value.obj [("a", Value.obj [("b", Value.num 1)]), ("a.b", Value.num 2)]]


/-- The document of the array-opacity example: `{ tags: [{x:1},{y:2}] }`. -/
def tagsDoc : Value :=
  Value.obj [("tags", Value.arr [Value.obj [("x", Value.num 1)],
    Value.obj [("y", Value.num 2)]])]

/-- Whether a value is an object carrying a `$in` key (the JavaScript test
`typeof value === 'object' && value !== null && '$in' in value`, restricted
to own keys). -/
def hasInKey : Value → Bool
  | .obj e => e.any (fun kv => kv.1 = "$in")
  | _ => false

mutual
/-- Values on which the identifier-coercion pass is provably the identity:
pure JSON values (no `Date`/`ObjectId` instances) containing no string that
passes `ObjectId` validity and no object with a `$in` key sitting under an
id-like key. -/
def convInert : Value → Bool
  | .null => true
  | .bool _ => true
  | .num _ => true
  | .str s => !isValidObjectIdStr s
  | .date _ => false
  | .objectId _ => false
  | .arr l => convInertList l
  | .obj e => convInertEntries e

/-- `convInert` on every element of an array. -/
def convInertList : List Value → Bool
  | [] => true
  | v :: rest => convInert v && convInertList rest

/-- `convInert` on every entry of an object, additionally requiring that no
id-like key holds a `$in`-object. -/
def convInertEntries : List (String × Value) → Bool
  | [] => true
  | (k, v) :: rest =>
    (!(isIdKey k && hasInKey v)) && convInert v && convInertEntries rest
end

/-- The query filter `{ userId: { $in: ["x"], $nin: ["y"] } }`. -/
def inCounterexample : Value :=
  Value.obj [("userId", Value.obj [("$in", Value.arr [Value.str "x"]),
    ("$nin", Value.arr [Value.str "y"])])]

/-! ## Basic lemmas about the traversal -/

/-- The recursion guard of `analyzeObject` holds exactly for plain objects:
`typeof` is `"object"` also for arrays, `Date`s, `ObjectId`s and `null`, but
those are classified earlier in the precedence chain. -/
theorem analyze_guard_iff (v : Value) :
    (((classify v == "object") && !v.isNull) = true) ↔ ∃ e, v = Value.obj e := by
  cases v <;> simp [classify, jsTypeof, jsIsArray, jsIsDate, jsIsObjectId, Value.isNull]

theorem applyVisits_nil (m : FieldInfoMap) : applyVisits m [] = m := rfl

theorem applyVisits_cons (m : FieldInfoMap) (pv : String × Value) (vs : List (String × Value)) :
    applyVisits m (pv :: vs) = applyVisits (updateField m pv.1 pv.2) vs := rfl

theorem applyVisits_append (m : FieldInfoMap) (vs ws : List (String × Value)) :
    applyVisits m (vs ++ ws) = applyVisits (applyVisits m vs) ws := by
  unfold applyVisits
  exact List.foldl_append _ _ _ _

/-- The accumulator computed by `analyzeEntries` is the fold of `updateField`
over the visit list recorded by `visitedEntries`. -/
theorem analyzeEntries_eq_applyVisits (m : FieldInfoMap) (pre : String)
    (l : List (String × Value)) :
    analyzeEntries m pre l = applyVisits m (visitedEntries pre l) := by
  refine visitedEntries.induct
    (fun pre l => ∀ m, analyzeEntries m pre l = applyVisits m (visitedEntries pre l))
    (fun fp v => ∀ m, analyzeInto m fp v = applyVisits m (visitedInto fp v))
    ?_ ?_ ?_ ?_ pre l m
  · intro fp entries ih m
    simpa [analyzeInto, visitedInto] using ih m
  · intro v fp h m
    cases v
    case obj e => exact absurd rfl (h e)
    all_goals rfl
  · intro pre m
    simp [analyzeEntries, visitedEntries, applyVisits]
  · intro pre key v rest fp ih2 ih1 m
    by_cases hg : ((classify v == "object") && !v.isNull) = true
    · simp only [analyzeEntries, visitedEntries, hg, if_true, applyVisits_cons,
        applyVisits_append, applyVisits_nil, ih1, ih2]
    · simp only [analyzeEntries, visitedEntries, hg, if_false, applyVisits_cons,
        applyVisits_append, applyVisits_nil, ih1]
      simp [applyVisits_nil]

/-! ## Lemmas about single record updates -/

theorem touchInfo_eq (info : FieldInfo) (v : Value) :
    touchInfo info v =
      { types := if info.types.contains (classify v) then info.types
                 else info.types ++ [classify v]
        examples := if info.examples.length < 3 && !v.isNull then info.examples ++ [v]
                    else info.examples
        count := info.count + 1 } := by
  unfold touchInfo
  dsimp only
  split
  next h => simp [h]
  next h => simp [h]

theorem touchInfo_count (info : FieldInfo) (v : Value) :
    (touchInfo info v).count = info.count + 1 := by
  rw [touchInfo_eq]

theorem touchInfo_types (info : FieldInfo) (v : Value) :
    (touchInfo info v).types =
      if info.types.contains (classify v) then info.types else info.types ++ [classify v] := by
  rw [touchInfo_eq]

theorem touchInfo_examples (info : FieldInfo) (v : Value) :
    (touchInfo info v).examples =
      if info.examples.length < 3 && !v.isNull then info.examples ++ [v]
      else info.examples := by
  rw [touchInfo_eq]

theorem lookupInfo_updateField_self (m : FieldInfoMap) (path : String) (v : Value) :
    lookupInfo (updateField m path v) path =
      some (touchInfo ((lookupInfo m path).getD ⟨[], [], 0⟩) v) := by
  induction m with
  | nil => simp [updateField, lookupInfo]
  | cons hd rest ih =>
    obtain ⟨p, info⟩ := hd
    by_cases h : p = path
    · subst h
      simp [updateField, lookupInfo]
    · simp [updateField, lookupInfo, h, ih]

theorem lookupInfo_updateField_other (m : FieldInfoMap) (path : String) (v : Value)
    (q : String) (h : path ≠ q) :
    lookupInfo (updateField m path v) q = lookupInfo m q := by
  induction m with
  | nil => simp [updateField, lookupInfo, h]
  | cons hd rest ih =>
    obtain ⟨p, info⟩ := hd
    by_cases hp : p = path
    · subst hp
      simp [updateField, lookupInfo, h]
    · simp [updateField, lookupInfo, hp, ih]

theorem countAt_updateField (m : FieldInfoMap) (path : String) (v : Value) (q : String) :
    countAt (updateField m path v) q = countAt m q + (if path = q then 1 else 0) := by
  by_cases h : path = q
  · subst h
    simp only [countAt, lookupInfo_updateField_self, touchInfo_count, if_true]
    cases hl : lookupInfo m path <;> simp [hl]
  · simp [countAt, lookupInfo_updateField_other m path v q h, h]

theorem keysOf_updateField (m : FieldInfoMap) (path : String) (v : Value) :
    keysOf (updateField m path v) =
      if path ∈ keysOf m then keysOf m else keysOf m ++ [path] := by
  induction m with
  | nil => simp [updateField, keysOf]
  | cons hd rest ih =>
    obtain ⟨p, info⟩ := hd
    by_cases h : p = path
    · subst h
      simp [updateField, keysOf]
    · have h' : path ≠ p := fun hh => h hh.symm
      simp only [updateField, if_neg h, keysOf, List.map_cons, List.mem_cons]
      simp only [keysOf] at ih
      rw [ih]
      by_cases hm : path ∈ rest.map Prod.fst <;> simp [hm, h']

theorem mem_keysOf_updateField (m : FieldInfoMap) (path : String) (v : Value) (q : String) :
    q ∈ keysOf (updateField m path v) ↔ q ∈ keysOf m ∨ q = path := by
  rw [keysOf_updateField]
  by_cases hm : path ∈ keysOf m
  · simp only [hm, if_true]
    constructor
    · exact fun h => Or.inl h
    · rintro (h | rfl)
      · exact h
      · exact hm
  · simp [hm]

theorem nodup_keysOf_updateField (m : FieldInfoMap) (path : String) (v : Value)
    (h : (keysOf m).Nodup) : (keysOf (updateField m path v)).Nodup := by
  rw [keysOf_updateField]
  by_cases hm : path ∈ keysOf m
  · simpa [hm]
  · simpa [hm, List.nodup_append] using h

theorem examplesAt_lookup (m : FieldInfoMap) (q : String) :
    ((lookupInfo m q).getD ⟨[], [], 0⟩).examples = examplesAt m q := by
  unfold examplesAt
  cases lookupInfo m q <;> rfl

theorem examplesAt_updateField (m : FieldInfoMap) (path : String) (v : Value) (q : String)
    (h : (examplesAt m q).length ≤ 3) :
    examplesAt (updateField m path v) q =
      (examplesAt m q ++ (if path = q && !v.isNull then [v] else [])).take 3 := by
  by_cases hq : path = q
  · subst hq
    have e1 : examplesAt (updateField m path v) path =
        (touchInfo ((lookupInfo m path).getD ⟨[], [], 0⟩) v).examples := by
      unfold examplesAt
      rw [lookupInfo_updateField_self]
    rw [e1, touchInfo_examples, examplesAt_lookup]
    by_cases hn : v.isNull = true
    · rw [if_neg (by simp [hn]), if_neg (by simp [hn]), List.append_nil,
        List.take_of_length_le h]
    · have hn' : v.isNull = false := by simpa using hn
      by_cases h3 : (examplesAt m path).length < 3
      · rw [if_pos (by simp [hn', h3]), if_pos (by simp [hn']),
          List.take_of_length_le (by simp [List.length_append]; omega)]
      · have hlen : (examplesAt m path).length = 3 := by omega
        rw [if_neg (by simp [h3]), if_pos (by simp [hn']),
          List.take_append_eq_append_take, List.take_of_length_le h, hlen]
        simp
  · have e1 : examplesAt (updateField m path v) q = examplesAt m q := by
      unfold examplesAt
      rw [lookupInfo_updateField_other m path v q hq]
    rw [e1, if_neg (by simp [hq]), List.append_nil, List.take_of_length_le h]

theorem examplesAt_updateField_le (m : FieldInfoMap) (path : String) (v : Value) (q : String)
    (h : (examplesAt m q).length ≤ 3) :
    (examplesAt (updateField m path v) q).length ≤ 3 := by
  rw [examplesAt_updateField m path v q h]
  simp

theorem typesAt_updateField_self_mem (m : FieldInfoMap) (path : String) (v : Value) :
    classify v ∈ typesAt (updateField m path v) path := by
  simp only [typesAt, lookupInfo_updateField_self, touchInfo_types]
  split
  next h => simpa using h
  next h => simp

/-! ## Lemmas about folded visit lists -/

theorem take_n_append {α : Type} (l g : List α) (n : Nat) :
    ((l.take n) ++ g).take n = (l ++ g).take n := by
  simp only [List.take_append_eq_append_take, List.take_take, Nat.min_self, List.length_take]
  congr 2
  omega

theorem countAt_applyVisits (vs : List (String × Value)) (m : FieldInfoMap) (q : String) :
    countAt (applyVisits m vs) q = countAt m q + (vs.map Prod.fst).count q := by
  induction vs generalizing m with
  | nil => simp [applyVisits]
  | cons pv vs ih =>
    rw [applyVisits_cons, ih, countAt_updateField]
    obtain ⟨path, v⟩ := pv
    by_cases h : path = q
    · subst h
      simp only [List.map_cons, List.count_cons, if_pos rfl, beq_self_eq_true]
      omega
    · have h' : ¬(q = path) := fun hh => h hh.symm
      simp [List.count_cons, h, h']

theorem mem_keysOf_applyVisits (vs : List (String × Value)) (m : FieldInfoMap) (q : String) :
    q ∈ keysOf (applyVisits m vs) ↔ q ∈ keysOf m ∨ q ∈ vs.map Prod.fst := by
  induction vs generalizing m with
  | nil => simp [applyVisits]
  | cons pv vs ih =>
    rw [applyVisits_cons, ih, mem_keysOf_updateField]
    obtain ⟨path, v⟩ := pv
    simp only [List.map_cons, List.mem_cons]
    tauto

theorem nodup_keysOf_applyVisits (vs : List (String × Value)) (m : FieldInfoMap)
    (h : (keysOf m).Nodup) : (keysOf (applyVisits m vs)).Nodup := by
  induction vs generalizing m with
  | nil => simpa [applyVisits]
  | cons pv vs ih =>
    rw [applyVisits_cons]
    exact ih _ (nodup_keysOf_updateField _ _ _ h)

theorem examplesAt_applyVisits (vs : List (String × Value)) (m : FieldInfoMap) (q : String)
    (h : (examplesAt m q).length ≤ 3) :
    examplesAt (applyVisits m vs) q = (examplesAt m q ++ visitValuesAt q vs).take 3 := by
  induction vs generalizing m with
  | nil => simp [applyVisits, visitValuesAt, List.take_of_length_le h]
  | cons pv vs ih =>
    obtain ⟨path, v⟩ := pv
    rw [applyVisits_cons, ih _ (examplesAt_updateField_le m path v q h),
      examplesAt_updateField m path v q h, take_n_append, List.append_assoc]
    congr 2
    by_cases hp : path = q
    · subst hp
      by_cases hn : v.isNull = true <;>
        simp [visitValuesAt, List.filter_cons, hn]
    · simp [visitValuesAt, List.filter_cons, hp]

theorem lookupInfo_of_mem (m : FieldInfoMap) (p : String) (info : FieldInfo)
    (hnd : (keysOf m).Nodup) (h : (p, info) ∈ m) : lookupInfo m p = some info := by
  induction m with
  | nil => simp at h
  | cons hd rest ih =>
    obtain ⟨p', info'⟩ := hd
    simp only [keysOf, List.map_cons, List.nodup_cons] at hnd
    rcases List.mem_cons.mp h with h1 | h1
    · have hp : p = p' := congrArg Prod.fst h1
      have hi : info = info' := congrArg Prod.snd h1
      subst hp
      subst hi
      simp [lookupInfo]
    · have hne : p' ≠ p := by
        intro hh
        subst hh
        exact hnd.1 (List.mem_map_of_mem Prod.fst h1)
      simp only [lookupInfo, if_neg hne]
      exact ih hnd.2 h1

theorem foldSamples_eq (docs : List Value) (m : FieldInfoMap) (h : Value.null ∉ docs) :
    foldSamples m docs = .ok (applyVisits m (docs.flatMap docVisits)) := by
  induction docs generalizing m with
  | nil => simp [foldSamples, applyVisits]
  | cons d docs ih =>
    have hd : d ≠ Value.null := fun hh => h (hh ▸ List.mem_cons_self d docs)
    have hds : Value.null ∉ docs := fun hh => h (List.mem_cons_of_mem d hh)
    have he : ∃ entries, jsEntries d = .ok entries ∧ docVisits d = visitedEntries "" entries := by
      cases d with
      | null => exact absurd rfl hd
      | _ => exact ⟨_, rfl, rfl⟩
    obtain ⟨entries, he1, he2⟩ := he
    simp only [foldSamples, analyzeDoc, he1, List.flatMap_cons, he2]
    rw [analyzeEntries_eq_applyVisits, ih _ hds, applyVisits_append]

/-! ## String lemmas for dotted paths -/

theorem string_eq_of_data (a b : String) (h : a.data = b.data) : a = b := by
  cases a
  cases b
  exact congrArg String.mk h

theorem data_join3 (a t : String) : (a ++ "." ++ t).data = a.data ++ '.' :: t.data := by
  simp [String.data_append]

theorem str_assoc4 (a b c : String) :
    (a ++ "." ++ b) ++ "." ++ c = a ++ "." ++ (b ++ "." ++ c) := by
  apply string_eq_of_data
  simp [String.data_append]

theorem keyOk_iff (k : String) : keyOk k = true ↔ k ≠ "" ∧ '.' ∉ k.data := by
  simp [keyOk]

theorem joinPath_ne_empty (p k : String) (hk : keyOk k = true) : joinPath p k ≠ "" := by
  obtain ⟨hne, -⟩ := (keyOk_iff k).mp hk
  unfold joinPath
  by_cases hp : p = ""
  · simpa [hp]
  · simp only [hp, if_false]
    intro h
    have hd := congrArg String.data h
    rw [data_join3] at hd
    have := congrArg List.length hd
    simp at this

theorem ne_append_dot (a t : String) : a ≠ a ++ "." ++ t := by
  intro h
  have hd := congrArg String.data h
  rw [data_join3] at hd
  have := congrArg List.length hd
  simp at this

theorem firstDot : ∀ (a : List Char) (b t u : List Char), '.' ∉ a → '.' ∉ b →
    a ++ '.' :: t = b ++ '.' :: u → a = b ∧ t = u := by
  intro a
  induction a with
  | nil =>
    intro b t u _ hb h
    cases b with
    | nil => simpa using h
    | cons c b' =>
      exfalso
      simp only [List.nil_append, List.cons_append, List.cons.injEq] at h
      obtain ⟨hc, -⟩ := h
      subst hc
      exact hb (List.mem_cons_self _ _)
  | cons c a' ih =>
    intro b t u ha hb h
    cases b with
    | nil =>
      exfalso
      simp only [List.cons_append, List.nil_append, List.cons.injEq] at h
      obtain ⟨hc, -⟩ := h
      subst hc
      exact ha (List.mem_cons_self _ _)
    | cons c' b' =>
      simp only [List.cons_append, List.cons.injEq] at h
      obtain ⟨rfl, h2⟩ := h
      have ha' : '.' ∉ a' := fun hm => ha (List.mem_cons_of_mem _ hm)
      have hb' : '.' ∉ b' := fun hm => hb (List.mem_cons_of_mem _ hm)
      obtain ⟨h3, h4⟩ := ih b' t u ha' hb' h2
      exact ⟨by rw [h3], h4⟩

theorem joinPath_inj (p k k' : String) (h : joinPath p k = joinPath p k') : k = k' := by
  by_cases hp : p = ""
  · simpa [joinPath, hp] using h
  · simp only [joinPath, hp, if_false] at h
    have hd := congrArg String.data h
    rw [data_join3, data_join3] at hd
    have := List.append_cancel_left hd
    simp only [List.cons.injEq] at this
    exact string_eq_of_data _ _ this.2

theorem joinPath_ne_extension (p k k' t : String) (hk : keyOk k = true) :
    joinPath p k ≠ joinPath p k' ++ "." ++ t := by
  obtain ⟨-, hnd⟩ := (keyOk_iff k).mp hk
  intro h
  by_cases hp : p = ""
  · simp only [joinPath, hp, if_true] at h
    have hd := congrArg String.data h
    rw [data_join3] at hd
    exact hnd (hd ▸ List.mem_append_right _ (List.mem_cons_self _ _))
  · simp only [joinPath, hp, if_false] at h
    rw [str_assoc4] at h
    have hd := congrArg String.data h
    rw [data_join3, data_join3] at hd
    have h2 := List.append_cancel_left hd
    simp only [List.cons.injEq] at h2
    rw [data_join3] at h2
    exact hnd (h2.2 ▸ List.mem_append_right _ (List.mem_cons_self _ _))

theorem joinPath_ext_inj (p k k' t u : String) (hk : keyOk k = true) (hk' : keyOk k' = true)
    (h : joinPath p k ++ "." ++ t = joinPath p k' ++ "." ++ u) : k = k' := by
  obtain ⟨-, hnd⟩ := (keyOk_iff k).mp hk
  obtain ⟨-, hnd'⟩ := (keyOk_iff k').mp hk'
  by_cases hp : p = ""
  · simp only [joinPath, hp, if_true] at h
    have hd := congrArg String.data h
    rw [data_join3, data_join3] at hd
    exact string_eq_of_data _ _ (firstDot _ _ _ _ hnd hnd' hd).1
  · simp only [joinPath, hp, if_false] at h
    rw [str_assoc4, str_assoc4] at h
    have hd := congrArg String.data h
    simp only [data_join3] at hd
    have h2 := List.append_cancel_left hd
    simp only [List.cons.injEq] at h2
    exact string_eq_of_data _ _ (firstDot _ _ _ _ hnd hnd' h2.2).1

/-! ## Uniqueness of visited paths within one document -/

theorem keysOkEntries_iff (l : List (String × Value)) :
    keysOkEntries l = true ↔ ∀ kv ∈ l, keysOk kv.2 = true := by
  induction l with
  | nil => simp [keysOkEntries]
  | cons kv rest ih =>
    obtain ⟨k, v⟩ := kv
    simp [keysOkEntries, ih]

theorem keysOk_cons (k : String) (v : Value) (rest : List (String × Value))
    (h : keysOk (Value.obj ((k, v) :: rest)) = true) :
    keyOk k = true ∧ keysOk v = true ∧ keysOk (Value.obj rest) = true ∧
      k ∉ rest.map Prod.fst := by
  simp only [keysOk, Bool.and_eq_true, decide_eq_true_eq, List.all_eq_true,
    List.map_cons, List.nodup_cons, List.mem_cons, keysOkEntries] at h ⊢
  obtain ⟨⟨hnd, hall⟩, hv, hrest⟩ := h
  exact ⟨hall _ (Or.inl rfl), hv, ⟨⟨hnd.2, fun k hk => hall _ (Or.inr hk)⟩, hrest⟩, hnd.1⟩

theorem pathList_cons (pre key : String) (v : Value) (rest : List (String × Value)) :
    pathList pre ((key, v) :: rest) =
      joinPath pre key ::
        (((if (classify v == "object") && !v.isNull then visitedInto (joinPath pre key) v
           else []).map Prod.fst) ++ pathList pre rest) := by
  simp [pathList, visitedEntries]

theorem pathList_shape :
    ∀ (pre : String) (l : List (String × Value)), keysOk (Value.obj l) = true →
      ∀ q ∈ pathList pre l, ∃ k, k ∈ l.map Prod.fst ∧ keyOk k = true ∧
        (q = joinPath pre k ∨ ∃ t, q = joinPath pre k ++ "." ++ t) := by
  refine visitedEntries.induct
    (fun pre l => keysOk (Value.obj l) = true →
      ∀ q ∈ pathList pre l, ∃ k, k ∈ l.map Prod.fst ∧ keyOk k = true ∧
        (q = joinPath pre k ∨ ∃ t, q = joinPath pre k ++ "." ++ t))
    (fun fp v => keysOk v = true → fp ≠ "" →
      ∀ q ∈ (visitedInto fp v).map Prod.fst, ∃ t, q = fp ++ "." ++ t)
    ?_ ?_ ?_ ?_
  · intro fp entries ih hk hfp q hq
    obtain ⟨k, hkmem, hkok, hcase⟩ := ih hk q hq
    rcases hcase with h | ⟨t, h⟩
    · refine ⟨k, ?_⟩
      rw [h]
      simp [joinPath, hfp]
    · refine ⟨k ++ "." ++ t, ?_⟩
      rw [h]
      simp only [joinPath, hfp, if_false]
      exact str_assoc4 fp k t
  · intro v fp h hk hfp q hq
    cases v
    case obj e => exact absurd rfl (h e)
    all_goals simp [visitedInto] at hq
  · intro pre hk q hq
    simp [pathList, visitedEntries] at hq
  · intro pre key v rest fp ihInto ihRest hk q hq
    obtain ⟨hkey, hv, hrest, hnotin⟩ := keysOk_cons key v rest hk
    rw [pathList_cons] at hq
    rcases List.mem_cons.mp hq with rfl | hq2
    · exact ⟨key, List.mem_cons_self _ _, hkey, Or.inl rfl⟩
    rcases List.mem_append.mp hq2 with hin | hin
    · by_cases hg : ((classify v == "object") && !v.isNull) = true
      · rw [if_pos hg] at hin
        obtain ⟨t, ht⟩ := ihInto hv (joinPath_ne_empty pre key hkey) q hin
        exact ⟨key, List.mem_cons_self _ _, hkey, Or.inr ⟨t, ht⟩⟩
      · rw [if_neg hg] at hin
        simp at hin
    · obtain ⟨k, hk1, hk2, hk3⟩ := ihRest hrest q hin
      exact ⟨k, List.mem_cons_of_mem _ hk1, hk2, hk3⟩

theorem visitedInto_shape (fp : String) (v : Value) (hk : keysOk v = true) (hfp : fp ≠ "") :
    ∀ q ∈ (visitedInto fp v).map Prod.fst, ∃ t, q = fp ++ "." ++ t := by
  intro q hq
  cases v
  case obj e =>
    obtain ⟨k, -, hkok, hcase⟩ := pathList_shape fp e hk q hq
    rcases hcase with h | ⟨t, h⟩
    · refine ⟨k, ?_⟩
      rw [h]
      simp [joinPath, hfp]
    · refine ⟨k ++ "." ++ t, ?_⟩
      rw [h]
      simp only [joinPath, hfp, if_false]
      exact str_assoc4 fp k t
  all_goals simp [visitedInto] at hq

theorem pathList_nodup :
    ∀ (pre : String) (l : List (String × Value)), keysOk (Value.obj l) = true →
      (pathList pre l).Nodup := by
  refine visitedEntries.induct
    (fun pre l => keysOk (Value.obj l) = true → (pathList pre l).Nodup)
    (fun fp v => keysOk v = true → ((visitedInto fp v).map Prod.fst).Nodup)
    ?_ ?_ ?_ ?_
  · intro fp entries ih hk
    exact ih hk
  · intro v fp h hk
    cases v
    case obj e => exact absurd rfl (h e)
    all_goals simp [visitedInto]
  · intro pre hk
    simp [pathList, visitedEntries]
  · intro pre key v rest fp ihInto ihRest hk
    obtain ⟨hkey, hv, hrest, hnotin⟩ := keysOk_cons key v rest hk
    rw [pathList_cons]
    refine List.nodup_cons.mpr ⟨?_, ?_⟩
    · intro hmem
      rcases List.mem_append.mp hmem with hin | hin
      · by_cases hg : ((classify v == "object") && !v.isNull) = true
        · rw [if_pos hg] at hin
          obtain ⟨t, ht⟩ :=
            visitedInto_shape (joinPath pre key) v hv
              (joinPath_ne_empty pre key hkey) _ hin
          exact ne_append_dot (joinPath pre key) t ht
        · rw [if_neg hg] at hin
          simp at hin
      · obtain ⟨k, hk1, hk2, hk3⟩ := pathList_shape pre rest hrest _ hin
        rcases hk3 with h | ⟨t, h⟩
        · exact hnotin (joinPath_inj pre key k h ▸ hk1)
        · exact joinPath_ne_extension pre key k t hkey h
    · refine List.Nodup.append ?_ (ihRest hrest) ?_
      · by_cases hg : ((classify v == "object") && !v.isNull) = true
        · rw [if_pos hg]
          exact ihInto hv
        · rw [if_neg hg]
          simp
      · intro q hq1 hq2
        have hg : ((classify v == "object") && !v.isNull) = true := by
          by_contra hg
          rw [if_neg hg] at hq1
          simp at hq1
        rw [if_pos hg] at hq1
        obtain ⟨t, ht⟩ :=
          visitedInto_shape (joinPath pre key) v hv
            (joinPath_ne_empty pre key hkey) _ hq1
        obtain ⟨k, hk1, hk2, hk3⟩ := pathList_shape pre rest hrest _ hq2
        rcases hk3 with h | ⟨u, h⟩
        · exact joinPath_ne_extension pre k key t hk2 (h ▸ ht)
        · have : key = k := joinPath_ext_inj pre key k t u hkey hk2 (ht ▸ h ▸ rfl)
          exact hnotin (this ▸ hk1)

/-! ## Fold-level bounds and report inversion -/

theorem goodDoc_obj (d : Value) (h : goodDoc d = true) : ∃ e, d = Value.obj e := by
  cases d <;> simp [goodDoc] at h ⊢

theorem count_docVisits_le_one (d : Value) (h : goodDoc d = true) (q : String) :
    ((docVisits d).map Prod.fst).count q ≤ 1 := by
  obtain ⟨e, rfl⟩ := goodDoc_obj d h
  have hk : keysOk (Value.obj e) = true := h
  have : ((docVisits (Value.obj e)).map Prod.fst) = pathList "" e := rfl
  rw [this]
  exact List.nodup_iff_count_le_one.mp (pathList_nodup "" e hk) q

theorem count_flatMap_le (docs : List Value) (h : ∀ d ∈ docs, goodDoc d = true) (q : String) :
    ((docs.flatMap docVisits).map Prod.fst).count q ≤ docs.length := by
  induction docs with
  | nil => simp
  | cons d docs ih =>
    have h1 := count_docVisits_le_one d (h d (List.mem_cons_self _ _)) q
    have h2 := ih (fun x hx => h x (List.mem_cons_of_mem _ hx))
    simp only [List.flatMap_cons, List.map_append, List.count_append, List.length_cons]
    omega

theorem inferSamples_ok_of_good (samples : List Value)
    (h : ∀ d ∈ samples, goodDoc d = true) :
    inferSamples samples = .ok (applyVisits [] (samples.flatMap docVisits)) := by
  apply foldSamples_eq
  intro hmem
  have := h _ hmem
  simp [goodDoc] at this

theorem countAt_inferSamples_le (samples : List Value) (m' : FieldInfoMap)
    (h : ∀ d ∈ samples, goodDoc d = true) (hok : inferSamples samples = .ok m')
    (q : String) : countAt m' q ≤ samples.length := by
  rw [inferSamples_ok_of_good samples h] at hok
  have hm : m' = applyVisits [] (samples.flatMap docVisits) := by
    injection hok with hh
    exact hh.symm
  rw [hm, countAt_applyVisits]
  have : countAt [] q = 0 := rfl
  rw [this]
  simpa using count_flatMap_le samples h q

theorem countAt_pos_of_mem_keys (samples : List Value) (m' : FieldInfoMap)
    (h : ∀ d ∈ samples, goodDoc d = true) (hok : inferSamples samples = .ok m')
    (q : String) (hq : q ∈ keysOf m') : 1 ≤ countAt m' q := by
  rw [inferSamples_ok_of_good samples h] at hok
  have hm : m' = applyVisits [] (samples.flatMap docVisits) := by
    injection hok with hh
    exact hh.symm
  subst hm
  rw [countAt_applyVisits]
  have h0 : countAt [] q = 0 := rfl
  rw [h0]
  rcases (mem_keysOf_applyVisits _ _ _).mp hq with h1 | h1
  · simp [keysOf] at h1
  · have := List.count_pos_iff.mpr h1
    omega

theorem foldSamples_nodup_keys (docs : List Value) (m m' : FieldInfoMap)
    (h : (keysOf m).Nodup) (hok : foldSamples m docs = .ok m') : (keysOf m').Nodup := by
  induction docs generalizing m with
  | nil =>
    simp only [foldSamples] at hok
    injection hok with hh
    exact hh ▸ h
  | cons d docs ih =>
    cases hd : jsEntries d with
    | error e =>
      simp [foldSamples, analyzeDoc, hd] at hok
    | ok entries =>
      simp only [foldSamples, analyzeDoc, hd] at hok
      refine ih _ ?_ hok
      rw [analyzeEntries_eq_applyVisits]
      exact nodup_keysOf_applyVisits _ _ h

theorem examplesAt_inferSamples (samples : List Value) (m' : FieldInfoMap)
    (h : Value.null ∉ samples) (hok : inferSamples samples = .ok m')
    (q : String) :
    examplesAt m' q = (visitValuesAt q (samples.flatMap docVisits)).take 3 := by
  rw [show inferSamples samples = foldSamples [] samples from rfl,
    foldSamples_eq samples [] h] at hok
  have hm : m' = applyVisits [] (samples.flatMap docVisits) := by
    injection hok with hh
    exact hh.symm
  subst hm
  have h0 : examplesAt [] q = [] := rfl
  rw [examplesAt_applyVisits _ _ _ (by rw [h0]; simp), h0, List.nil_append]

theorem visitValuesAt_no_null (q : String) (vs : List (String × Value)) :
    ∀ v ∈ visitValuesAt q vs, v.isNull = false := by
  intro v hv
  have := List.of_mem_filter hv
  simpa using this

theorem jsRound100_le_100 (count len : Nat) (h1 : 1 ≤ len) (h2 : count ≤ len) :
    jsRound100 count len ≤ 100 := by
  unfold jsRound100
  have h3 : 200 * count + len < 2 * len * 101 := by omega
  exact Nat.lt_succ_iff.mp (Nat.div_lt_of_lt_mul h3)

theorem jsRound100_pos (count len : Nat) (h1 : 1 ≤ count) (h2 : 1 ≤ len) (h3 : len ≤ 200) :
    1 ≤ jsRound100 count len := by
  unfold jsRound100
  apply (Nat.le_div_iff_mul_le (by omega)).mpr
  omega

theorem getSchema_report_inv (name : String) (docs : List Value) (N : Nat)
    (c : String) (sz : Nat) (fields : List (String × FieldView)) (tf td : Nat)
    (h : getSchema name docs N = .ok (.report c sz fields tf td)) :
    c = name ∧ sz = (fetchLimit docs N).length ∧ td = sz ∧ tf = fields.length ∧
      ∃ m, inferSamples (fetchLimit docs N) = .ok m ∧
        fields = m.map (fun pi => (pi.1, mkView sz pi.2)) := by
  unfold getSchema at h
  by_cases hlen : (fetchLimit docs N).length = 0
  · rw [if_pos hlen] at h
    simp at h
  · rw [if_neg hlen] at h
    cases hm : inferSamples (fetchLimit docs N) with
    | error e =>
      rw [hm] at h
      simp at h
    | ok m =>
      rw [hm] at h
      simp only [Except.ok.injEq, GetSchemaResult.report.injEq] at h
      obtain ⟨h1, h2, h3, h4, h5⟩ := h
      refine ⟨h1.symm, h2.symm, by omega, ?_, m, rfl, ?_⟩
      · rw [← h3, ← h4]
      · rw [← h3, ← h2]

/-! ## Claim C1 -/

/-- Claim C1, counterexample: on the single-document sample `dottedSample`
the path `"a.b"` is counted twice, so `presenceCount = 2` exceeds the actual
sample count `1` and the reported percentage is `200 ∉ [1, 100]`: the claimed
invariant is false as stated. -/
theorem presence_count_bound_counterexample :
    ¬ (inferredCount dottedSample "a.b" ≤ dottedSample.length ∧
        fieldPercentage (getSchema "c" dottedSample 10) "a.b" ≤ 100) := by
  decide

/-- Claim C1 (amended): for documents whose object keys are pairwise
distinct, nonempty and dot-free (so that distinct key chains yield distinct
dotted paths), every field record of a successful report satisfies
`0 < presenceCount ≤ sampleSize_actual`, its `frequency` string is
`"<presenceCount>/<sampleSize_actual>"`, and
`percentage = round(100 * presenceCount / sampleSize_actual)` lies in
`[0, 100]` — with `percentage ≥ 1` guaranteed only when the actual sample
count is at most `200` (for larger samples the rounding can reach `0`). -/
theorem schema_report_frequency_bounds (name : String) (docs : List Value) (N : Nat)
    (c : String) (sz : Nat) (fields : List (String × FieldView)) (tf td : Nat)
    (hgood : ∀ d ∈ docs, goodDoc d = true)
    (h : getSchema name docs N = .ok (.report c sz fields tf td)) :
    ∀ pv ∈ fields, ∃ cnt : Nat, 1 ≤ cnt ∧ cnt ≤ sz ∧
      pv.2.frequency = toString cnt ++ "/" ++ toString sz ∧
      pv.2.percentage = jsRound100 cnt sz ∧
      pv.2.percentage ≤ 100 ∧ (sz ≤ 200 → 1 ≤ pv.2.percentage) := by
  obtain ⟨-, hsz, -, -, m, hm, hfields⟩ := getSchema_report_inv name docs N c sz fields tf td h
  have hgood' : ∀ d ∈ fetchLimit docs N, goodDoc d = true := by
    intro d hd
    apply hgood
    unfold fetchLimit at hd
    by_cases hN : N = 0
    · rw [if_pos hN] at hd
      exact hd
    · rw [if_neg hN] at hd
      exact List.take_subset _ _ hd
  have hnd := foldSamples_nodup_keys (fetchLimit docs N) [] m (by simp [keysOf]) hm
  intro pv hpv
  rw [hfields] at hpv
  obtain ⟨pi, hpi, hpv2⟩ := List.mem_map.mp hpv
  obtain ⟨p, info⟩ := pi
  have hview : pv.2 = mkView sz info := by
    rw [← hpv2]
  have hlook := lookupInfo_of_mem m p info hnd hpi
  have hcnt : countAt m p = info.count := by
    unfold countAt
    rw [hlook]
  have hmemk : p ∈ keysOf m := List.mem_map_of_mem Prod.fst hpi
  have hpos : 1 ≤ countAt m p := countAt_pos_of_mem_keys _ _ hgood' hm p hmemk
  have hle : countAt m p ≤ (fetchLimit docs N).length := countAt_inferSamples_le _ _ hgood' hm p
  have hsz1 : 1 ≤ sz := by
    rw [hsz]
    omega
  refine ⟨info.count, by omega, by rw [hsz]; omega, ?_, ?_, ?_, ?_⟩
  · rw [hview]
    rfl
  · rw [hview]
    rfl
  · rw [hview]
    exact jsRound100_le_100 info.count sz hsz1 (by rw [hsz]; omega)
  · intro h200
    rw [hview]
    exact jsRound100_pos info.count sz (by omega) hsz1 h200

/-- Claim C1, witness: the amended bounds hold concretely on a one-document
sample, where the single field has count 1, frequency `"1/1"` and
percentage 100. -/
theorem schema_report_frequency_bounds_witness :
    (FieldView.mk ["number"] [Value.num 1] "1/1" 100).percentage ≤ 100 ∧
      1 ≤ (FieldView.mk ["number"] [Value.num 1] "1/1" 100).percentage := by
  have h := schema_report_frequency_bounds "c" [Value.obj [("a", Value.num 1)]] 1 "c" 1
    [("a", FieldView.mk ["number"] [Value.num 1] "1/1" 100)] 1 1 (by decide) rfl
  obtain ⟨cnt, -, -, -, -, h5, h6⟩ :=
    h ("a", FieldView.mk ["number"] [Value.num 1] "1/1" 100) (by simp)
  exact ⟨h5, h6 (by omega)⟩

/-! ## Claim C2 -/

/-- Claim C2: the end-to-end example.  On the two-document sample
`[{"_id":"1","name":"Al","tags":["x"]}, {"_id":"2","name":42}]` with
requested sample size 2, the report contains exactly the fields `_id`
(types `[string]`, frequency `"2/2"`, percentage 100), `name`
(types `[string, number]`, frequency `"2/2"`, percentage 100) and `tags`
(types `[array]`, frequency `"1/2"`, percentage 50). -/
theorem getSchema_e2e_example (name : String) :
    getSchema name
      [Value.obj [("_id", Value.str "1"), ("name", Value.str "Al"),
         ("tags", Value.arr [Value.str "x"])],
       Value.obj [("_id", Value.str "2"), ("name", Value.num 42)]] 2 =
      .ok (.report name 2
        [("_id", FieldView.mk ["string"] [Value.str "1", Value.str "2"] "2/2" 100),
         ("name", FieldView.mk ["string", "number"] [Value.str "Al", Value.num 42] "2/2" 100),
         ("tags", FieldView.mk ["array"] [Value.arr [Value.str "x"]] "1/2" 50)]
        3 2) := rfl

/-! ## Claim C3 -/

/-- Claim C3, counterexample: on an empty sample the handler returns the
`{ message: 'No documents found in collection', fields: {} }` response, which
carries no `sampleSize` field at all — so the claim that the report has
`sampleSize = 0` is false as stated. -/
theorem empty_sample_counterexample :
    getSchema "c" ([] : List Value) 5 =
        .ok (.noDocuments "No documents found in collection" []) ∧
      responseHasSampleSize (getSchema "c" ([] : List Value) 5) = false :=
  ⟨rfl, rfl⟩

/-- Claim C3 (amended): for every requested sample size, inference over an
empty collection returns the response with the explicit
`No documents found in collection` message and an empty field mapping,
before any frequency or percentage division is performed — but the response
contains no `sampleSize` field. -/
theorem getSchema_empty_collection (name : String) (n : Nat) :
    getSchema name ([] : List Value) n =
      .ok (.noDocuments "No documents found in collection" []) := by
  unfold getSchema fetchLimit
  by_cases hn : n = 0 <;> simp [hn]

/-! ## Claim C4 -/

/-- Claim C4, counterexample: a `null` record in the middle of the sample
makes `Object.entries` throw, aborting the whole inference run — the
remaining documents are not processed and no report is produced, so the
claimed skip-and-continue behavior is false as stated. -/
theorem null_document_aborts_inference :
    inferSamples [Value.obj [("a", Value.num 1)], Value.null,
        Value.obj [("b", Value.num 2)]] =
      .error "TypeError: Cannot convert undefined or null to object" := rfl

theorem foldSamples_error_of_null (samples : List Value) (h : Value.null ∈ samples)
    (m : FieldInfoMap) :
    foldSamples m samples = .error "TypeError: Cannot convert undefined or null to object" := by
  induction samples generalizing m with
  | nil => simp at h
  | cons d rest ih =>
    by_cases hd : d = Value.null
    · subst hd
      simp [foldSamples, analyzeDoc, jsEntries]
    · have hr : Value.null ∈ rest := by
        rcases List.mem_cons.mp h with h1 | h1
        · exact absurd h1.symm hd
        · exact h1
      have he : ∃ entries, jsEntries d = .ok entries := by
        cases d with
        | null => exact absurd rfl hd
        | _ => exact ⟨_, rfl⟩
      obtain ⟨entries, he1⟩ := he
      simp only [foldSamples, analyzeDoc, he1]
      exact ih hr _

/-- Claim C4 (amended): a sampled record that is a number, boolean, `Date` or
`ObjectId` contributes nothing and folding continues, but a `null` record
makes the entire inference run fail with a `TypeError` (the error escalates
out of the fold), and a string record is iterated character by character,
contributing index-keyed field paths. -/
theorem malformed_document_handling :
    (∀ samples : List Value, Value.null ∈ samples →
        inferSamples samples = .error "TypeError: Cannot convert undefined or null to object") ∧
    (∀ (m : FieldInfoMap) (n : Int), analyzeDoc m (Value.num n) = .ok m) ∧
    (∀ (m : FieldInfoMap) (b : Bool), analyzeDoc m (Value.bool b) = .ok m) ∧
    (∀ (m : FieldInfoMap) (t : Int), analyzeDoc m (Value.date t) = .ok m) ∧
    (∀ (m : FieldInfoMap) (i : String), analyzeDoc m (Value.objectId i) = .ok m) ∧
    inferSamples [Value.str "ab"] =
      .ok [("0", ⟨["string"], [Value.str "a"], 1⟩), ("1", ⟨["string"], [Value.str "b"], 1⟩)] := by
  refine ⟨fun samples h => foldSamples_error_of_null samples h [], fun m n => rfl,
    fun m b => rfl, fun m t => rfl, fun m i => rfl, ?_⟩
  rfl

/-- Claim C4, witness: concretely, a sample consisting of just `null` errors,
and a numeric document leaves the accumulator untouched. -/
theorem malformed_document_handling_witness :
    inferSamples [Value.null] =
        .error "TypeError: Cannot convert undefined or null to object" ∧
      analyzeDoc [] (Value.num 7) = .ok [] :=
  ⟨malformed_document_handling.1 [Value.null] (List.mem_cons_self _ _),
   malformed_document_handling.2.1 [] 7⟩

/-! ## Claim C5 -/

/-- Claim C5: the type tag follows the fixed first-match precedence — array,
then null, then date, then ObjectId, then the JavaScript primitive kind —
and the computed tag is added to the path's type set.  The `jsTypeof`
conjuncts witness that the precedence is meaningful: an array (like `null`,
`Date` and `ObjectId`) has `typeof` `"object"` and owes its tag to the
earlier match. -/
theorem classify_precedence :
    (∀ l, classify (Value.arr l) = "array") ∧
    (classify Value.null = "null") ∧
    (∀ t, classify (Value.date t) = "date") ∧
    (∀ i, classify (Value.objectId i) = "ObjectId") ∧
    (∀ s, classify (Value.str s) = "string") ∧
    (∀ n, classify (Value.num n) = "number") ∧
    (∀ b, classify (Value.bool b) = "boolean") ∧
    (∀ e, classify (Value.obj e) = "object") ∧
    (∀ l, jsTypeof (Value.arr l) = "object") ∧
    (jsTypeof Value.null = "object") ∧
    (∀ t, jsTypeof (Value.date t) = "object") ∧
    (∀ i, jsTypeof (Value.objectId i) = "object") ∧
    (∀ (m : FieldInfoMap) (path : String) (v : Value),
      classify v ∈ typesAt (updateField m path v) path) :=
  ⟨fun _ => rfl, rfl, fun _ => rfl, fun _ => rfl, fun _ => rfl, fun _ => rfl,
   fun _ => rfl, fun _ => rfl, fun _ => rfl, rfl, fun _ => rfl, fun _ => rfl,
   typesAt_updateField_self_mem⟩

/-! ## Claim C6 -/

theorem specPaths_eq_pathList :
    ∀ (pre : String) (l : List (String × Value)),
      specPathsEntries pre l = pathList pre l := by
  refine visitedEntries.induct
    (fun pre l => specPathsEntries pre l = pathList pre l)
    (fun fp v => specPaths fp v = (visitedInto fp v).map Prod.fst)
    ?_ ?_ ?_ ?_
  · intro fp entries ih
    simpa [specPaths, visitedInto, pathList] using ih
  · intro v fp h
    cases v
    case obj e => exact absurd rfl (h e)
    all_goals simp [specPaths, visitedInto]
  · intro pre
    simp [specPathsEntries, pathList, visitedEntries]
  · intro pre key v rest fp ih2 ih1
    rw [pathList_cons]
    simp only [specPathsEntries]
    congr 1
    congr 1
    by_cases hg : ((classify v == "object") && !v.isNull) = true
    · rw [if_pos hg, ← ih2]
    · rw [if_neg hg]
      cases v <;>
        first
          | exact absurd ((analyze_guard_iff _).mpr ⟨_, rfl⟩) hg
          | simp [specPaths]

theorem keys_inferSamples (samples : List Value) (m' : FieldInfoMap)
    (hobj : ∀ d ∈ samples, ∃ e, d = Value.obj e)
    (hok : inferSamples samples = .ok m') (q : String) :
    q ∈ keysOf m' ↔ ∃ d ∈ samples, q ∈ specPaths "" d := by
  have hnull : Value.null ∉ samples := by
    intro hmem
    obtain ⟨e, he⟩ := hobj _ hmem
    cases he
  rw [show inferSamples samples = foldSamples [] samples from rfl,
    foldSamples_eq samples [] hnull] at hok
  have hm : m' = applyVisits [] (samples.flatMap docVisits) := by
    injection hok with hh
    exact hh.symm
  subst hm
  rw [mem_keysOf_applyVisits]
  constructor
  · rintro (h | h)
    · simp [keysOf] at h
    · obtain ⟨pv, hpv, hq⟩ := List.mem_map.mp h
      obtain ⟨d, hd, hpvd⟩ := List.mem_flatMap.mp hpv
      obtain ⟨e, rfl⟩ := hobj d hd
      refine ⟨Value.obj e, hd, ?_⟩
      rw [specPaths, specPaths_eq_pathList]
      exact hq ▸ List.mem_map_of_mem Prod.fst hpvd
  · rintro ⟨d, hd, hq⟩
    obtain ⟨e, rfl⟩ := hobj d hd
    rw [specPaths, specPaths_eq_pathList] at hq
    right
    obtain ⟨pv, hpv, hq⟩ := List.mem_map.mp hq
    exact hq ▸ List.mem_map_of_mem Prod.fst
      (List.mem_flatMap.mpr ⟨Value.obj e, hd, hpv⟩)

/-- Claim C6: the report's field-path set is exactly the set of paths
reachable by recursive descent into object-typed values only; and on the
document `{ tags: [{x:1},{y:2}] }` the report has the single path `tags`
with type `array` — `tags.x` and `tags.y` are absent. -/
theorem field_paths_exactly_object_descent :
    (∀ (samples : List Value) (m' : FieldInfoMap),
      (∀ d ∈ samples, ∃ e, d = Value.obj e) →
      inferSamples samples = .ok m' →
      ∀ q, q ∈ keysOf m' ↔ ∃ d ∈ samples, q ∈ specPaths "" d) ∧
    getSchema "c" [tagsDoc] 5 =
      .ok (.report "c" 1
        [("tags", FieldView.mk ["array"]
          [Value.arr [Value.obj [("x", Value.num 1)], Value.obj [("y", Value.num 2)]]]
          "1/1" 100)] 1 1) ∧
    "tags" ∈ (reportFields (getSchema "c" [tagsDoc] 5)).map Prod.fst ∧
    "tags.x" ∉ (reportFields (getSchema "c" [tagsDoc] 5)).map Prod.fst ∧
    "tags.y" ∉ (reportFields (getSchema "c" [tagsDoc] 5)).map Prod.fst := by
  refine ⟨keys_inferSamples, rfl, ?_, ?_, ?_⟩ <;> decide

/-- Claim C6, witness: the path-set characterization applied to the
one-document sample `[{ tags: [{x:1},{y:2}] }]`. -/
theorem field_paths_exactly_object_descent_witness :
    ("tags" ∈ keysOf [("tags", (⟨["array"],
        [Value.arr [Value.obj [("x", Value.num 1)], Value.obj [("y", Value.num 2)]]],
        1⟩ : FieldInfo))] ↔
      ∃ d ∈ [tagsDoc], "tags" ∈ specPaths "" d) := by
  have h := field_paths_exactly_object_descent.1 [tagsDoc]
    [("tags", (⟨["array"],
      [Value.arr [Value.obj [("x", Value.num 1)], Value.obj [("y", Value.num 2)]]],
      1⟩ : FieldInfo))]
    (by
      intro d hd
      simp only [List.mem_singleton] at hd
      exact ⟨_, hd⟩)
    rfl "tags"
  exact h

/-! ## Claim C7 -/

theorem fetchLimit_subset (docs : List Value) (N : Nat) :
    ∀ d ∈ fetchLimit docs N, d ∈ docs := by
  intro d hd
  unfold fetchLimit at hd
  by_cases hN : N = 0
  · rw [if_pos hN] at hd
    exact hd
  · rw [if_neg hN] at hd
    exact List.take_subset _ _ hd

/-- Claim C7: every field record's `examples` is the ordered first-3-seen
sequence of non-null values observed at its path (in particular of length at
most 3 and never containing the null marker), while a `null` value still
increments the presence count and adds the `"null"` tag to the type set
without being captured as an example. -/
theorem examples_cap_and_null_exclusion :
    (∀ (name : String) (docs : List Value) (N : Nat) (c : String) (sz : Nat)
        (fields : List (String × FieldView)) (tf td : Nat),
      Value.null ∉ docs →
      getSchema name docs N = .ok (.report c sz fields tf td) →
      ∀ pv ∈ fields,
        pv.2.examples =
          (visitValuesAt pv.1 ((fetchLimit docs N).flatMap docVisits)).take 3 ∧
        pv.2.examples.length ≤ 3 ∧
        ∀ v ∈ pv.2.examples, v.isNull = false) ∧
    (∀ (m : FieldInfoMap) (path : String),
      countAt (updateField m path Value.null) path = countAt m path + 1 ∧
      "null" ∈ typesAt (updateField m path Value.null) path ∧
      examplesAt (updateField m path Value.null) path = examplesAt m path) := by
  constructor
  · intro name docs N c sz fields tf td hnull h pv hpv
    obtain ⟨-, -, -, -, m, hm, hfields⟩ := getSchema_report_inv name docs N c sz fields tf td h
    have hnull' : Value.null ∉ fetchLimit docs N := fun hmem =>
      hnull (fetchLimit_subset docs N _ hmem)
    have hnd := foldSamples_nodup_keys (fetchLimit docs N) [] m (by simp [keysOf]) hm
    rw [hfields] at hpv
    obtain ⟨⟨p, info⟩, hpi, hpv2⟩ := List.mem_map.mp hpv
    have hview : pv.2 = mkView sz info := by rw [← hpv2]
    have hfst : pv.1 = p := by rw [← hpv2]
    have hex : info.examples = examplesAt m p := by
      unfold examplesAt
      rw [lookupInfo_of_mem m p info hnd hpi]
    have hforms := examplesAt_inferSamples (fetchLimit docs N) m hnull' hm p
    have hshape : pv.2.examples =
        (visitValuesAt p ((fetchLimit docs N).flatMap docVisits)).take 3 := by
      rw [hview, show (mkView sz info).examples = info.examples from rfl, hex, hforms]
    refine ⟨by rw [hfst]; exact hshape, ?_, ?_⟩
    · rw [hshape]
      simp
    · intro v hv
      rw [hshape] at hv
      exact visitValuesAt_no_null _ _ v (List.mem_of_mem_take hv)
  · intro m path
    refine ⟨?_, ?_, ?_⟩
    · rw [countAt_updateField]
      simp
    · exact typesAt_updateField_self_mem m path Value.null
    · have h0 : examplesAt (updateField m path Value.null) path =
          (touchInfo ((lookupInfo m path).getD ⟨[], [], 0⟩) Value.null).examples := by
        unfold examplesAt
        rw [lookupInfo_updateField_self]
      rw [h0, touchInfo_examples, if_neg (by simp [Value.isNull]), examplesAt_lookup]

/-- Claim C7, witness: on the one-document sample `[{a: null}]` the field
record for `a` captures no example while still counting the document, and a
null touch increments the presence count. -/
theorem examples_cap_and_null_exclusion_witness :
    (FieldView.mk ["null"] [] "1/1" 100).examples.length ≤ 3 ∧
      countAt (updateField [] "a" Value.null) "a" = countAt [] "a" + 1 := by
  refine ⟨?_, (examples_cap_and_null_exclusion.2 [] "a").1⟩
  have h := (examples_cap_and_null_exclusion.1 "c" [Value.obj [("a", Value.null)]] 1 "c" 1
    [("a", FieldView.mk ["null"] [] "1/1" 100)] 1 1 (by simp) rfl
    ("a", FieldView.mk ["null"] [] "1/1" 100) (by simp)).2.1
  exact h

/-! ## Claim C8 -/

/-- Claim C8: the public view formats every field's frequency as
`"<presenceCount>/<sampleSize_actual>"` and computes its percentage from the
same actual sample count; `sampleSize` and `summary.totalDocuments` both
equal the actual number of fetched documents (not the requested size), and
`summary.totalFields` is the number of distinct field paths of the mapping.
The concrete conjunct samples one document with requested size 100: the
report uses the actual count 1 throughout. -/
theorem report_uses_actual_sample_count :
    (∀ (name : String) (docs : List Value) (N : Nat) (c : String) (sz : Nat)
        (fields : List (String × FieldView)) (tf td : Nat),
      getSchema name docs N = .ok (.report c sz fields tf td) →
      c = name ∧ sz = (fetchLimit docs N).length ∧ td = sz ∧ tf = fields.length ∧
      (fields.map Prod.fst).Nodup ∧
      ∀ pv ∈ fields, ∃ cnt,
        pv.2.frequency = toString cnt ++ "/" ++ toString sz ∧
        pv.2.percentage = jsRound100 cnt sz) ∧
    getSchema "c" [Value.obj [("a", Value.num 1)]] 100 =
      .ok (.report "c" 1 [("a", FieldView.mk ["number"] [Value.num 1] "1/1" 100)] 1 1) := by
  constructor
  · intro name docs N c sz fields tf td h
    obtain ⟨h1, h2, h3, h4, m, hm, hfields⟩ :=
      getSchema_report_inv name docs N c sz fields tf td h
    have hnd := foldSamples_nodup_keys (fetchLimit docs N) [] m (by simp [keysOf]) hm
    refine ⟨h1, h2, h3, h4, ?_, ?_⟩
    · have hk : fields.map Prod.fst = keysOf m := by
        rw [hfields]
        simp [keysOf, List.map_map, Function.comp]
      rw [hk]
      exact hnd
    · intro pv hpv
      rw [hfields] at hpv
      obtain ⟨⟨p, info⟩, hpi, hpv2⟩ := List.mem_map.mp hpv
      have hview : pv.2 = mkView sz info := by rw [← hpv2]
      exact ⟨info.count, by rw [hview]; rfl, by rw [hview]; rfl⟩
  · rfl

/-- Claim C8, witness: the aggregation facts applied to the one-document
sample with requested size 100 — the actual count is 1 and the field keys
are distinct. -/
theorem report_uses_actual_sample_count_witness :
    (1 : Nat) = (fetchLimit [Value.obj [("a", Value.num 1)]] 100).length ∧
      ([("a", FieldView.mk ["number"] [Value.num 1] "1/1" 100)].map Prod.fst).Nodup := by
  obtain ⟨-, h2, -, -, h5, -⟩ :=
    report_uses_actual_sample_count.1 "c" [Value.obj [("a", Value.num 1)]] 100 "c" 1
      [("a", FieldView.mk ["number"] [Value.num 1] "1/1" 100)] 1 1
      report_uses_actual_sample_count.2
  exact ⟨h2, h5⟩

/-! ## Claim C9 -/

theorem convertToObjectIds_obj_eq (e : List (String × Value)) :
    convertToObjectIds (Value.obj e) = Value.obj (convertEntries e) := rfl

theorem convertToObjectIds_str_eq (s : String) :
    convertToObjectIds (Value.str s) =
      if isValidObjectIdStr s && s.length = 24 then Value.objectId s else Value.str s := by
  by_cases he : s = ""
  · subst he
    rw [show convertToObjectIds (Value.str "") = Value.str "" from rfl, if_neg (by decide)]
  · have hf : isFalsy (Value.str s) = false := by simp [isFalsy, he]
    unfold convertToObjectIds
    rw [hf]
    simp

theorem convOidElem_of_inert (v : Value) (h : convInert v = true) : convOidElem v = v := by
  cases v <;> simp [convOidElem, convInert] at h ⊢
  simp [h]

theorem map_convOidElem_of_inert (l : List Value) (h : convInertList l = true) :
    l.map convOidElem = l := by
  induction l with
  | nil => simp
  | cons v rest ih =>
    simp only [convInertList, Bool.and_eq_true] at h
    simp [convOidElem_of_inert v h.1, ih h.2]

theorem convertToObjectIds_id_of_inert :
    ∀ v : Value, convInert v = true → convertToObjectIds v = v := by
  refine convertToObjectIds.induct
    (fun v => convInert v = true → convertToObjectIds v = v)
    (fun e => convInertEntries e = true → convertEntries e = e)
    (fun l => convInertList l = true → convertList l = l)
    ?_ ?_ ?_ ?_ ?_ ?_ ?_ ?_ ?_ ?_ ?_ ?_
  · intro t h hin
    unfold convertToObjectIds
    rw [h]
    simp
  · intro s h hf hin
    simp only [convInert, Bool.not_eq_eq_eq_not, Bool.not_true] at hin
    simp [hin] at h
  · intro s h hf hin
    rw [convertToObjectIds_str_eq, if_neg h]
  · intro elems hf ih hin
    rw [show convertToObjectIds (Value.arr elems) = Value.arr (convertList elems) from rfl,
      ih hin]
  · intro entries hf ih hin
    rw [convertToObjectIds_obj_eq, ih hin]
  · intro t hf hin
    simp [convInert] at hin
  · intro i hf hin
    simp [convInert] at hin
  · intro other h1 h2 h3 h4 h5 hf hin
    cases other with
    | str s => exact absurd rfl (h1 s)
    | arr l => exact absurd rfl (h2 l)
    | obj e => exact absurd rfl (h3 e)
    | date t => exact absurd rfl (h4 t)
    | objectId i => exact absurd rfl (h5 i)
    | null => exact absurd (show isFalsy Value.null = true from rfl) hf
    | bool b =>
      cases b with
      | true => rfl
      | false => simp [isFalsy] at hf
    | num n =>
      have hf' : isFalsy (Value.num n) = false := by simpa [isFalsy] using hf
      unfold convertToObjectIds
      rw [hf']
      simp
  · intro hin
    rfl
  · intro v rest ih1 ih3 hin
    simp only [convInertList, Bool.and_eq_true] at hin
    simp [convertList, ih1 hin.1, ih3 hin.2]
  · intro hin
    rfl
  · intro key value rest ih1 ih2 hin
    simp only [convInertEntries, Bool.and_eq_true, Bool.not_eq_eq_eq_not, Bool.not_true] at hin
    obtain ⟨⟨hno, hv⟩, hrest⟩ := hin
    simp only [convertEntries, ih2 hrest]
    refine congrArg (fun x => (key, x) :: rest) ?_
    by_cases hid : isIdKey key = true
    · rw [if_pos hid]
      rw [hid] at hno
      simp only [Bool.true_and] at hno
      cases value with
      | str s =>
        have hval : isValidObjectIdStr s = false := by simpa [convInert] using hv
        show (if isValidObjectIdStr s = true then Value.objectId s
          else convertToObjectIds (Value.str s)) = Value.str s
        rw [if_neg (by simp [hval])]
        exact ih1 hv
      | arr l =>
        show Value.arr (l.map convOidElem) = Value.arr l
        rw [map_convOidElem_of_inert l (by simpa [convInert] using hv)]
      | obj e =>
        have hany : (e.any fun kv => kv.1 = "$in") = false := by
          simpa [hasInKey] using hno
        show (if (e.any fun kv => kv.1 = "$in") = true then Value.obj [("$in", dollarInValue e)]
          else convertToObjectIds (Value.obj e)) = Value.obj e
        rw [if_neg (by simp [hany])]
        exact ih1 hv
      | null => exact ih1 hv
      | bool b => exact ih1 hv
      | num n => exact ih1 hv
      | date t => simp [convInert] at hv
      | objectId i => simp [convInert] at hv
    · rw [if_neg hid]
      exact ih1 hv

/-- Claim C9, counterexample: under the id-suffixed key `userId`, an object
value carrying both `$in` and `$nin` is rebuilt to contain only its `$in`
entry — sibling keys are dropped, so the value is not returned structurally
unchanged even though no string in it passes ObjectId validity. -/
theorem convert_drops_in_siblings :
    convertToObjectIds inCounterexample =
        Value.obj [("userId", Value.obj [("$in", Value.arr [Value.str "x"])])] ∧
      convertToObjectIds inCounterexample ≠ inCounterexample := by
  refine ⟨rfl, ?_⟩
  intro h
  rw [show convertToObjectIds inCounterexample =
    Value.obj [("userId", Value.obj [("$in", Value.arr [Value.str "x"])])] from rfl] at h
  simp [inCounterexample] at h

/-- Claim C9 (amended): a string under a key named `_id` or ending in `_id`,
`Id`, `_ids` or `Ids` is replaced by an `ObjectId` whenever it passes
ObjectId validity (which includes 12-character strings), a string in any
other position is converted only when valid and of length exactly 24, and a
pure JSON value containing no ObjectId-valid string is returned structurally
unchanged — except that under an id-like key an object carrying a `$in` key
is rebuilt to contain only its `$in` entry (sibling keys dropped). -/
theorem convertToObjectIds_amended :
    (∀ k s, isIdKey k = true → isValidObjectIdStr s = true →
      convertToObjectIds (Value.obj [(k, Value.str s)]) =
        Value.obj [(k, Value.objectId s)]) ∧
    (∀ k s, isIdKey k = false →
      convertToObjectIds (Value.obj [(k, Value.str s)]) =
        Value.obj [(k, if isValidObjectIdStr s && s.length = 24 then Value.objectId s
                       else Value.str s)]) ∧
    (∀ s, convertToObjectIds (Value.str s) =
      if isValidObjectIdStr s && s.length = 24 then Value.objectId s else Value.str s) ∧
    (∀ k e, isIdKey k = true → hasInKey (Value.obj e) = true →
      convertToObjectIds (Value.obj [(k, Value.obj e)]) =
        Value.obj [(k, Value.obj [("$in", dollarInValue e)])]) ∧
    (∀ v, convInert v = true → convertToObjectIds v = v) := by
  refine ⟨?_, ?_, convertToObjectIds_str_eq, ?_, convertToObjectIds_id_of_inert⟩
  · intro k s hk hs
    rw [convertToObjectIds_obj_eq]
    simp [convertEntries, hk, hs]
  · intro k s hk
    rw [convertToObjectIds_obj_eq]
    simp only [convertEntries, hk, Bool.false_eq_true, if_false]
    rw [convertToObjectIds_str_eq]
  · intro k e hk hin
    have hany : (e.any fun kv => kv.1 = "$in") = true := by simpa [hasInKey] using hin
    rw [convertToObjectIds_obj_eq]
    simp [convertEntries, hk, hany]

/-- Claim C9, witness: the id-key rule applied to a valid 12-character
string (converted despite not having length 24), the positional rule
applied to the same string under a plain key (left unchanged), and the
inertness of a plain filter. -/
theorem convertToObjectIds_amended_witness :
    convertToObjectIds (Value.obj [("_id", Value.str "aaaaaaaaaaaa")]) =
        Value.obj [("_id", Value.objectId "aaaaaaaaaaaa")] ∧
      convertToObjectIds (Value.obj [("name", Value.str "aaaaaaaaaaaa")]) =
        Value.obj [("name", Value.str "aaaaaaaaaaaa")] ∧
      convertToObjectIds (Value.obj [("name", Value.str "bob")]) =
        Value.obj [("name", Value.str "bob")] := by
  refine ⟨convertToObjectIds_amended.1 "_id" "aaaaaaaaaaaa" (by decide) (by decide), ?_, ?_⟩
  · have h := convertToObjectIds_amended.2.1 "name" "aaaaaaaaaaaa" (by decide)
    rw [h, if_neg (by decide)]
  · exact convertToObjectIds_amended.2.2.2.2 (Value.obj [("name", Value.str "bob")]) (by decide)

/-! ## Claim C10 -/

/-- Claim C10: the recursive fold terminates on every (finite, acyclic)
document — witnessed by `analyzeEntries` being a total function and by the
fold succeeding on every null-free sample — and its recursion is exactly
shaped as claimed: an entry whose value classifies as anything other than
`object` is folded without descending into the value, while an entry holding
a plain object descends exactly into that object's own entry list (a strict
sub-tree); `array`, `null`, `date`, `ObjectId` and primitive values never
classify as `object`. -/
theorem analyze_recursion_shape :
    (∀ (m : FieldInfoMap) (pre key : String) (v : Value) (rest : List (String × Value)),
      classify v ≠ "object" →
      analyzeEntries m pre ((key, v) :: rest) =
        analyzeEntries (updateField m (joinPath pre key) v) pre rest) ∧
    (∀ (m : FieldInfoMap) (pre key : String) (e : List (String × Value))
        (rest : List (String × Value)),
      analyzeEntries m pre ((key, Value.obj e) :: rest) =
        analyzeEntries
          (analyzeEntries (updateField m (joinPath pre key) (Value.obj e)) (joinPath pre key) e)
          pre rest) ∧
    (∀ l, classify (Value.arr l) ≠ "object") ∧
    (classify Value.null ≠ "object") ∧
    (∀ t, classify (Value.date t) ≠ "object") ∧
    (∀ i, classify (Value.objectId i) ≠ "object") ∧
    (∀ s, classify (Value.str s) ≠ "object") ∧
    (∀ n, classify (Value.num n) ≠ "object") ∧
    (∀ b, classify (Value.bool b) ≠ "object") ∧
    (∀ samples : List Value, Value.null ∉ samples → ∃ m, inferSamples samples = .ok m) := by
  refine ⟨?_, ?_, ?_, by decide, ?_, ?_, ?_, ?_, ?_, ?_⟩
  · intro m pre key v rest h
    have hg : ¬(((classify v == "object") && !v.isNull) = true) := by
      simp [h]
    simp only [analyzeEntries, if_neg hg]
  · intro m pre key e rest
    rfl
  · intro l
    show "array" ≠ "object"
    decide
  · intro t
    show "date" ≠ "object"
    decide
  · intro i
    show "ObjectId" ≠ "object"
    decide
  · intro s
    show "string" ≠ "object"
    decide
  · intro n
    show "number" ≠ "object"
    decide
  · intro b
    show "boolean" ≠ "object"
    decide
  · intro samples h
    exact ⟨_, foldSamples_eq samples [] h⟩

/-- Claim C10, witness: a non-object entry is folded without recursion, and
inference succeeds (terminates with a result) on a concrete sample. -/
theorem analyze_recursion_shape_witness :
    analyzeEntries [] "" [("a", Value.num 1)] =
        analyzeEntries (updateField [] "a" (Value.num 1)) "" [] ∧
      ∃ m, inferSamples [Value.obj [("a", Value.num 1)]] = .ok m := by
  constructor
  · have h := analyze_recursion_shape.1 [] "" "a" (Value.num 1) [] (by decide)
    simpa [joinPath] using h
  · exact analyze_recursion_shape.2.2.2.2.2.2.2.2.2 [Value.obj [("a", Value.num 1)]] (by simp)
